import Mathlib

set_option maxRecDepth 4000

/-! Shallow embedding of the core of `export_notebooks.py`: the token-stream
codec (`MdRenderer.get_block` and the `list_item` / `table_row` /
`table_cell` encoders), the math lexer rules and math renderer, the table
layout pass, and the image-embedding layer.  Strings are `List Char`, file
contents are `List Nat` byte lists, Python exceptions are `Option` /
`Except`, and Python's negative-index slicing is modelled explicitly. -/

/-- Index of the first `':'` in a string, `none` when absent (Python
`text.find(':')` returns `-1` in that case). -/
def findColon : List Char → Option Nat
  | [] => none
  | c :: cs => if c = ':' then some 0 else (findColon cs).map (· + 1)

/-- Numeric value of a string of decimal digits, most significant first. -/
def decVal (s : List Char) : Nat :=
  s.foldl (fun a c => 10 * a + (c.toNat - 48)) 0

/-- Python `int(s)` on the argument shapes this program can produce: an
optional single sign followed by decimal digits (`none` models the
`ValueError` raise; whitespace and underscore forms do not arise here). -/
def pyInt? (s : List Char) : Option Int :=
  match s with
  | [] => none
  | c :: rest =>
    if c = '-' then
      if rest ≠ [] ∧ rest.all Char.isDigit then some (-(decVal rest : Int)) else none
    else if c = '+' then
      if rest ≠ [] ∧ rest.all Char.isDigit then some ((decVal rest : Int)) else none
    else if (c :: rest).all Char.isDigit then some ((decVal (c :: rest) : Int)) else none

/-- Normalise a Python slice index against a length `n`: a negative index
counts from the end (clamped at 0), a nonnegative one is clamped at `n`. -/
def normIdx (n : Nat) (i : Int) : Nat :=
  if i < 0 then ((n : Int) + i).toNat else min i.toNat n

/-- Python `s[a:b]`. -/
def pySlice (s : List Char) (a b : Int) : List Char :=
  (s.take (normIdx s.length b)).drop (normIdx s.length a)

/-- Python `s[a:]`. -/
def pySliceFrom (s : List Char) (a : Int) : List Char :=
  s.drop (normIdx s.length a)

/-- Model of `MdRenderer.get_block`: decode one `tag + length + ':' + payload` chunk of
the token-stream codec, returning `(remainder, tag, payload)`.  `none` models
the uncaught Python exceptions (`IndexError` on an empty buffer, `ValueError`
from `int`); the `('', '', '')` triple is returned, exactly as in the source,
when no `':'` is found or when it is the first character (`p <= 0`). -/
def get_block (text : List Char) : Option (List Char × List Char × List Char) :=
  if text = [] then none
  else
    match findColon text with
    | none => some ([], [], [])
    | some p =>
      if p = 0 then some ([], [], [])
      else
        match pyInt? (pySlice text 1 (p : Int)) with
        | none => none
        | some l =>
          some (pySliceFrom text ((p : Int) + 1 + l), text.take 1,
                pySlice text ((p : Int) + 1) ((p : Int) + 1 + l))

/-- Decimal digit character for `d < 10` (used by the embedding of Python
`str` on a natural number). -/
def digitOf : Nat → Char
  | 0 => '0' | 1 => '1' | 2 => '2' | 3 => '3' | 4 => '4'
  | 5 => '5' | 6 => '6' | 7 => '7' | 8 => '8' | _ => '9'

/-- Digits of `n`, most significant first, accumulated onto `acc`; the first
argument is fuel (`n` itself is always enough, see `toDecAuxF_fuel`). -/
def toDecAuxF : Nat → Nat → List Char → List Char
  | 0, _, acc => acc
  | _, 0, acc => acc
  | f + 1, n + 1, acc => toDecAuxF f ((n + 1) / 10) (digitOf ((n + 1) % 10) :: acc)

/-- Python `str(n)` for a natural number `n`. -/
def toDec (n : Nat) : List Char :=
  if n = 0 then ['0'] else toDecAuxF n n []

/-- The chunk construction `T + str(len(P)) + ':' + P` shared by the
`list_item`, `table_row` and `table_cell` render callbacks. -/
def encode (t : Char) (p : List Char) : List Char :=
  t :: (toDec p.length ++ ':' :: p)

/-- Model of `MdRenderer.list_item`. -/
def list_item (text : List Char) : List Char := encode 'l' text

/-- Model of `MdRenderer.table_row`. -/
def table_row (content : List Char) : List Char := encode 'r' content

/-- Concatenation of the encodings of a sequence of `(tag, payload)` chunks. -/
def encodeSeq (chunks : List (Char × List Char)) : List Char :=
  match chunks with
  | [] => []
  | c :: cs => encode c.1 c.2 ++ encodeSeq cs

/-- Repeatedly decode chunks until the buffer is empty, collecting the
`(tag, payload)` pairs in order; the first argument is fuel (the buffer
length is always enough, because every decoding step either empties the
buffer or shortens it). -/
def decodeAllF : Nat → List Char → Option (List (List Char × List Char))
  | _, [] => some []
  | 0, _ :: _ => none
  | f + 1, s =>
    match get_block s with
    | none => none
    | some (rem, ty, p) => (decodeAllF f rem).map (fun r => (ty, p) :: r)

/-- The repeated-decoding loop shared by `MdRenderer.list` and
`MdRenderer.table` (`while text: text, type, t = get_block(text) ...`). -/
def decodeAll (s : List Char) : Option (List (List Char × List Char)) :=
  decodeAllF s.length s

section CodecLemmas

theorem digitOf_isDigit (d : Nat) : (digitOf d).isDigit = true := by
  match d with
  | 0 | 1 | 2 | 3 | 4 | 5 | 6 | 7 | 8 => decide
  | n + 9 => show ('9').isDigit = true; decide

theorem digitOf_sub48 (d : Nat) (h : d < 10) : (digitOf d).toNat - 48 = d := by
  interval_cases d <;> decide

theorem isDigit_ne_colon {c : Char} (h : c.isDigit = true) : c ≠ ':' := by
  intro hc; subst hc; exact absurd h (by decide)

theorem isDigit_ne_minus {c : Char} (h : c.isDigit = true) : c ≠ '-' := by
  intro hc; subst hc; exact absurd h (by decide)

theorem isDigit_ne_plus {c : Char} (h : c.isDigit = true) : c ≠ '+' := by
  intro hc; subst hc; exact absurd h (by decide)

theorem toDecAuxF_all_digit :
    ∀ f n acc, acc.all Char.isDigit = true →
      (toDecAuxF f n acc).all Char.isDigit = true := by
  intro f
  induction f with
  | zero => intro n acc h; cases n <;> simpa [toDecAuxF] using h
  | succ f ih =>
    intro n acc h
    cases n with
    | zero => simpa [toDecAuxF] using h
    | succ m =>
      show (toDecAuxF f ((m + 1) / 10) (digitOf ((m + 1) % 10) :: acc)).all _ = true
      exact ih _ _ (by simp [List.all_cons, h, digitOf_isDigit])

theorem toDecAuxF_ne_nil :
    ∀ f n acc, acc ≠ [] ∨ (n ≠ 0 ∧ n ≤ f) → toDecAuxF f n acc ≠ [] := by
  intro f
  induction f with
  | zero =>
    intro n acc h
    rcases h with h | ⟨h1, h2⟩
    · cases n <;> simpa [toDecAuxF]
    · exact absurd (Nat.le_zero.mp h2) h1
  | succ f ih =>
    intro n acc h
    cases n with
    | zero =>
      rcases h with h | ⟨h1, _⟩
      · simpa [toDecAuxF]
      · exact absurd rfl h1
    | succ m =>
      show toDecAuxF f ((m + 1) / 10) (digitOf ((m + 1) % 10) :: acc) ≠ []
      exact ih _ _ (Or.inl (by simp))

theorem toDecAuxF_foldl :
    ∀ f n acc, n ≤ f →
      List.foldl (fun a c => 10 * a + (c.toNat - 48)) 0 (toDecAuxF f n acc)
        = List.foldl (fun a c => 10 * a + (c.toNat - 48)) n acc := by
  intro f
  induction f with
  | zero =>
    intro n acc h
    have hn : n = 0 := Nat.le_zero.mp h
    subst hn; rfl
  | succ f ih =>
    intro n acc h
    cases n with
    | zero => rfl
    | succ m =>
      show List.foldl _ 0 (toDecAuxF f ((m + 1) / 10) (digitOf ((m + 1) % 10) :: acc)) = _
      have hdiv : (m + 1) / 10 < m + 1 := Nat.div_lt_self (Nat.succ_pos m) (by omega)
      have hle : (m + 1) / 10 ≤ f := Nat.lt_succ_iff.mp (lt_of_lt_of_le hdiv h)
      rw [ih _ _ hle]
      simp only [List.foldl_cons]
      rw [digitOf_sub48 _ (Nat.mod_lt _ (by omega))]
      rw [Nat.div_add_mod (m + 1) 10]

theorem toDec_all_digit (n : Nat) : (toDec n).all Char.isDigit = true := by
  unfold toDec
  split
  · decide
  · exact toDecAuxF_all_digit _ _ _ (by decide)

theorem toDec_ne_nil (n : Nat) : toDec n ≠ [] := by
  unfold toDec
  split
  · simp
  · exact toDecAuxF_ne_nil _ _ _ (Or.inr ⟨by assumption, le_refl _⟩)

theorem decVal_toDec (n : Nat) : decVal (toDec n) = n := by
  unfold toDec decVal
  split
  · subst_vars; decide
  · simpa using toDecAuxF_foldl n n [] (le_refl n)

theorem pyInt?_digits (s : List Char) (hne : s ≠ []) (hd : s.all Char.isDigit = true) :
    pyInt? s = some ((decVal s : Int)) := by
  match s with
  | [] => exact absurd rfl hne
  | c :: rest =>
    have hc : c.isDigit = true := by
      have h2 := hd
      simp only [List.all_cons, Bool.and_eq_true] at h2
      exact h2.1
    have h1 : c ≠ '-' := isDigit_ne_minus hc
    have h2 : c ≠ '+' := isDigit_ne_plus hc
    simp [pyInt?, h1, h2, hd]

theorem findColon_notin_append (xs ys : List Char) (h : ∀ c ∈ xs, c ≠ ':') :
    findColon (xs ++ ':' :: ys) = some xs.length := by
  induction xs with
  | nil => simp [findColon]
  | cons c cs ih =>
    have hc : c ≠ ':' := h c (by simp)
    have ih2 := ih (fun x hx => h x (by simp [hx]))
    simp [findColon, hc, ih2]

theorem normIdx_nat (n k : Nat) : normIdx n (k : Int) = min k n := by
  unfold normIdx
  rw [if_neg (by omega)]
  simp

theorem take_min (s : List Char) (k : Nat) : s.take (min k s.length) = s.take k := by
  rcases Nat.le_total k s.length with h | h
  · rw [Nat.min_eq_left h]
  · rw [Nat.min_eq_right h, List.take_of_length_le h, List.take_length]

theorem drop_min (s : List Char) (k : Nat) : s.drop (min k s.length) = s.drop k := by
  rcases Nat.le_total k s.length with h | h
  · rw [Nat.min_eq_left h]
  · rw [Nat.min_eq_right h, List.drop_of_length_le h, List.drop_length]

theorem pySlice_nat (s : List Char) (a b : Nat) :
    pySlice s (a : Int) (b : Int) = (s.take b).drop a := by
  unfold pySlice
  rw [normIdx_nat, normIdx_nat, take_min]
  rcases Nat.le_total a s.length with h | h
  · rw [Nat.min_eq_left h]
  · rw [Nat.min_eq_right h]
    have h1 : (s.take b).length ≤ s.length := by
      simpa using Nat.min_le_right b s.length
    rw [List.drop_of_length_le h1, List.drop_of_length_le (le_trans h1 h)]

theorem pySliceFrom_nat (s : List Char) (a : Nat) :
    pySliceFrom s (a : Int) = s.drop a := by
  unfold pySliceFrom
  rw [normIdx_nat, drop_min]

theorem take_len_add (xs ys : List Char) (k : Nat) :
    (xs ++ ys).take (xs.length + k) = xs ++ ys.take k := by
  induction xs with
  | nil => simp
  | cons c cs ih =>
    have h : (c :: cs).length + k = (cs.length + k) + 1 := by
      simp only [List.length_cons]; omega
    rw [h, List.cons_append, List.take_succ_cons, ih, List.cons_append]

theorem drop_len_add (xs ys : List Char) (k : Nat) :
    (xs ++ ys).drop (xs.length + k) = ys.drop k := by
  induction xs with
  | nil => simp
  | cons c cs ih =>
    have h : (c :: cs).length + k = (cs.length + k) + 1 := by
      simp only [List.length_cons]; omega
    rw [h, List.cons_append, List.drop_succ_cons, ih]

theorem pySlice_one_nat (s : List Char) (p : Nat) :
    pySlice s 1 (p : Int) = (s.take p).drop 1 := by
  have h := pySlice_nat s 1 p
  simpa using h

theorem pySlice_cast_add (s : List Char) (p L : Nat) :
    pySlice s ((p : Int) + 1) ((p : Int) + 1 + (L : Int))
      = (s.take (p + 1 + L)).drop (p + 1) := by
  have h := pySlice_nat s (p + 1) (p + 1 + L)
  rw [show (((p + 1 : Nat)) : Int) = (p : Int) + 1 by push_cast; ring,
      show (((p + 1 + L : Nat)) : Int) = (p : Int) + 1 + (L : Int) by push_cast; ring] at h
  exact h

theorem pySliceFrom_cast_add (s : List Char) (p L : Nat) :
    pySliceFrom s ((p : Int) + 1 + (L : Int)) = s.drop (p + 1 + L) := by
  have h := pySliceFrom_nat s (p + 1 + L)
  rw [show (((p + 1 + L : Nat)) : Int) = (p : Int) + 1 + (L : Int) by push_cast; ring] at h
  exact h

/-- Decoding a buffer that starts with a well-formed header `t ds :` where
`ds` is a nonempty run of digits: the declared length is sliced out of the
tail, truncating when it overruns, as Python slicing does. -/
theorem get_block_digits (t : Char) (ds tail : List Char)
    (ht : t ≠ ':') (hne : ds ≠ []) (hd : ds.all Char.isDigit = true) :
    get_block (t :: (ds ++ ':' :: tail))
      = some (tail.drop (decVal ds), [t], tail.take (decVal ds)) := by
  have hdig : ∀ c ∈ ds, c.isDigit = true := by
    intro c hcm
    exact (List.all_eq_true.mp hd) c hcm
  have hnc : ∀ c ∈ t :: ds, c ≠ ':' := by
    intro c hc
    rcases List.mem_cons.mp hc with h | h
    · subst h; exact ht
    · exact isDigit_ne_colon (hdig c h)
  have hfind : findColon (t :: (ds ++ ':' :: tail)) = some (ds.length + 1) := by
    have h := findColon_notin_append (t :: ds) tail hnc
    simpa [List.cons_append] using h
  have hassoc : t :: (ds ++ ':' :: tail) = (t :: ds ++ [':']) ++ tail := by simp
  have htake1 : ((t :: (ds ++ ':' :: tail)).take (ds.length + 1)).drop 1 = ds := by
    rw [show ds.length + 1 = (ds.length) + 1 from rfl, List.take_succ_cons]
    have h := take_len_add ds (':' :: tail) 0
    simp only [Nat.add_zero, List.take_zero, List.append_nil] at h
    rw [h, List.drop_succ_cons, List.drop_zero]
  have hpay : ((t :: (ds ++ ':' :: tail)).take (ds.length + 1 + 1 + decVal ds)).drop
      (ds.length + 1 + 1) = tail.take (decVal ds) := by
    rw [hassoc]
    rw [show ds.length + 1 + 1 + decVal ds = (t :: ds ++ [':']).length + decVal ds by
      simp only [List.length_append, List.length_cons, List.length_nil]; try omega]
    rw [take_len_add]
    rw [show ds.length + 1 + 1 = (t :: ds ++ [':']).length + 0 by
      simp only [List.length_append, List.length_cons, List.length_nil]; try omega]
    rw [drop_len_add, List.drop_zero]
  have hrem : (t :: (ds ++ ':' :: tail)).drop (ds.length + 1 + 1 + decVal ds)
      = tail.drop (decVal ds) := by
    rw [hassoc]
    rw [show ds.length + 1 + 1 + decVal ds = (t :: ds ++ [':']).length + decVal ds by
      simp only [List.length_append, List.length_cons, List.length_nil]; try omega]
    rw [drop_len_add]
  have hne2 : t :: (ds ++ ':' :: tail) ≠ [] := by simp
  unfold get_block
  rw [if_neg hne2, hfind]
  simp only []
  rw [if_neg (show ¬(ds.length + 1 = 0) by omega)]
  rw [pySlice_one_nat, htake1, pyInt?_digits ds hne hd]
  simp only []
  rw [pySlice_cast_add, pySliceFrom_cast_add]
  rw [show ds.length + 1 + 1 + decVal ds = ds.length + 1 + 1 + decVal ds from rfl]
  rw [hpay, hrem]
  simp

/-- Decoding one encoded chunk followed by arbitrary trailing data. -/
theorem get_block_encode (t : Char) (p rest : List Char) (ht : t ≠ ':') :
    get_block (encode t p ++ rest) = some (rest, [t], p) := by
  have h := get_block_digits t (toDec p.length) (p ++ rest) ht
    (toDec_ne_nil _) (toDec_all_digit _)
  rw [decVal_toDec] at h
  have htk : (p ++ rest).take p.length = p := by
    have h2 := take_len_add p rest 0
    simpa using h2
  have hdr : (p ++ rest).drop p.length = rest := by
    have h2 := drop_len_add p rest 0
    simpa using h2
  rw [htk, hdr] at h
  simpa [encode, List.cons_append, List.append_assoc] using h

end CodecLemmas

section CodecClaims

theorem decodeAllF_nil (f : Nat) : decodeAllF f [] = some [] := by
  cases f <;> rfl

theorem decodeAllF_encodeSeq :
    ∀ chunks : List (Char × List Char), ∀ fuel,
      (encodeSeq chunks).length ≤ fuel →
      (∀ c ∈ chunks, c.1 ≠ ':') →
      decodeAllF fuel (encodeSeq chunks)
        = some (chunks.map (fun c => ([c.1], c.2))) := by
  intro chunks
  induction chunks with
  | nil => intro fuel h1 h2; exact decodeAllF_nil fuel
  | cons c cs ih =>
    intro fuel h1 h2
    obtain ⟨t, p⟩ := c
    have henc : encodeSeq ((t, p) :: cs) = encode t p ++ encodeSeq cs := rfl
    have hlen1 : 1 ≤ (encode t p).length := by simp [encode]
    have hlen : (encodeSeq cs).length + 1 ≤ fuel := by
      rw [henc, List.length_append] at h1
      omega
    match fuel, hlen with
    | f + 1, _ =>
      have hstep : decodeAllF (f + 1) (encode t p ++ encodeSeq cs)
          = (match get_block (encode t p ++ encodeSeq cs) with
             | none => none
             | some (rem, ty, q) =>
               (decodeAllF f rem).map (fun r => (ty, q) :: r)) := rfl
      rw [henc, hstep, get_block_encode t p _ (h2 (t, p) (by simp))]
      show (decodeAllF f (encodeSeq cs)).map (fun r => ([t], p) :: r)
          = some (List.map (fun c => ([c.1], c.2)) ((t, p) :: cs))
      rw [ih f (by omega) (fun x hx => h2 x (by simp [hx]))]
      rfl

/-- Claim C3: round-trip of the token-stream codec.  For every tag in
`{l, r, c, f}` and every payload (including payloads containing digits and
`':'`), decoding one chunk of `encode tag payload` yields the tag and the
payload back with an empty remainder; and repeatedly decoding the
concatenation of the encodings of any finite chunk sequence yields the
original sequence in order. -/
theorem codec_roundtrip :
    (∀ t p, (t = 'l' ∨ t = 'r' ∨ t = 'c' ∨ t = 'f') →
      get_block (encode t p) = some ([], [t], p)) ∧
    (∀ chunks : List (Char × List Char),
      (∀ c ∈ chunks, c.1 = 'l' ∨ c.1 = 'r' ∨ c.1 = 'c' ∨ c.1 = 'f') →
      decodeAll (encodeSeq chunks)
        = some (chunks.map (fun c => ([c.1], c.2)))) := by
  constructor
  · intro t p ht
    have htc : t ≠ ':' := by rcases ht with h | h | h | h <;> (subst h; decide)
    have h := get_block_encode t p [] htc
    simpa using h
  · intro chunks hc
    have hall : ∀ c ∈ chunks, c.1 ≠ ':' := by
      intro c hm
      rcases hc c hm with h | h | h | h <;> (rw [h]; decide)
    exact decodeAllF_encodeSeq chunks _ (le_refl _) hall

/-- Witness for `codec_roundtrip` at concrete inputs whose payloads contain
digits and `':'`. -/
theorem codec_roundtrip_witness :
    get_block (encode 'l' ("a:7".toList)) = some ([], ['l'], "a:7".toList) ∧
    decodeAll (encodeSeq [('l', "a:7".toList), ('c', "x".toList)])
      = some [(['l'], "a:7".toList), (['c'], "x".toList)] := by
  constructor
  · exact codec_roundtrip.1 'l' _ (Or.inl rfl)
  · have h := codec_roundtrip.2 [('l', "a:7".toList), ('c', "x".toList)] (by decide)
    simpa using h

/-- Claim C4 counterexample: on the two malformed buffer classes the claim
names, `get_block` does not raise.  `"abc"` has no `':'` delimiter and
decoding returns the empty triple; `"l5:ab"` declares length 5 with only two
payload characters left and decoding silently truncates, returning the
available payload and an empty remainder. -/
theorem get_block_malformed_cex :
    get_block ("abc".toList) = some ([], [], []) ∧
    get_block ("l5:ab".toList) = some ([], ['l'], "ab".toList) := by decide

/-- Claim C4 amended: on a nonempty buffer with no `':'` the decode returns
the empty triple `('', '', '')` rather than raising, and when the declared
length overruns the remaining buffer the decode silently truncates the
payload to the remaining characters and returns an empty remainder; only a
non-numeric length field raises (`ValueError` from `int`). -/
theorem get_block_malformed_amended :
    (∀ text, text ≠ [] → findColon text = none →
      get_block text = some ([], [], [])) ∧
    (∀ t ds pay, t ≠ ':' → ds ≠ [] → ds.all Char.isDigit = true →
      pay.length < decVal ds →
      get_block (t :: (ds ++ ':' :: pay)) = some ([], [t], pay)) := by
  constructor
  · intro text hne hfc
    unfold get_block
    rw [if_neg hne, hfc]
  · intro t ds pay ht hne hd hlt
    have h := get_block_digits t ds pay ht hne hd
    rw [List.drop_of_length_le (le_of_lt hlt),
        List.take_of_length_le (le_of_lt hlt)] at h
    exact h

/-- Witness for `get_block_malformed_amended` at concrete inputs. -/
theorem get_block_malformed_amended_witness :
    get_block ("zzz".toList) = some ([], [], []) ∧
    get_block ("c7:xy".toList) = some ([], ['c'], "xy".toList) := by
  constructor
  · exact get_block_malformed_amended.1 ("zzz".toList) (by decide) (by decide)
  · have h := get_block_malformed_amended.2 'c' ("7".toList) ("xy".toList)
      (by decide) (by decide) (by decide) (by decide)
    simpa using h

/-- Claim C10 counterexample: the decoder does not always make progress.  On
the crafted malformed buffer `"l-9:x"` the length field parses as `-9`, the
Python slice `text[p+1+l:]` wraps past the start, and `get_block` returns
the whole input as the remainder — neither empty nor shorter, so the
`while text:` loops in `list` and `table` would not terminate on it. -/
theorem get_block_progress_cex :
    get_block ("l-9:x".toList) = some ("l-9:x".toList, ['l'], []) ∧
    ¬(("l-9:x".toList : List Char) = [] ∨
      ("l-9:x".toList).length < ("l-9:x".toList).length) := by decide

/-- Claim C10 amended: every successful `get_block` call returns a remainder
that is empty, strictly shorter than the input, or equal to the whole input;
the last case needs a negative declared length, so whenever the length field
(the characters between the tag and the first `':'`) is a plain run of
digits — as in every buffer the encoder produces — the remainder is empty or
strictly shorter and the decoding loops in `list` and `table` terminate. -/
theorem get_block_progress_amended :
    (∀ text rem ty p, get_block text = some (rem, ty, p) →
      rem = [] ∨ rem.length < text.length ∨ rem = text) ∧
    (∀ text rem ty p, get_block text = some (rem, ty, p) →
      (∀ q, findColon text = some q →
        ((text.take q).drop 1).all Char.isDigit = true) →
      rem = [] ∨ rem.length < text.length) := by
  have key : ∀ text rem ty p, get_block text = some (rem, ty, p) →
      (rem = [] ∨ rem.length < text.length ∨ rem = text) ∧
      ((∀ q, findColon text = some q →
          ((text.take q).drop 1).all Char.isDigit = true) →
        rem = [] ∨ rem.length < text.length) := by
    intro text rem ty p h
    unfold get_block at h
    split at h
    · exact absurd h (by simp)
    next hte =>
      have hlen : 1 ≤ text.length := List.length_pos.mpr hte
      split at h
      · simp only [Option.some.injEq, Prod.mk.injEq] at h
        obtain ⟨h1, -, -⟩ := h
        subst h1
        exact ⟨Or.inl rfl, fun _ => Or.inl rfl⟩
      next q hfc =>
        split at h
        · simp only [Option.some.injEq, Prod.mk.injEq] at h
          obtain ⟨h1, -, -⟩ := h
          subst h1
          exact ⟨Or.inl rfl, fun _ => Or.inl rfl⟩
        next hq =>
          split at h
          · exact absurd h (by simp)
          next l hint =>
            simp only [Option.some.injEq, Prod.mk.injEq] at h
            obtain ⟨h1, -, -⟩ := h
            subst h1
            constructor
            · unfold pySliceFrom
              rcases Nat.eq_zero_or_pos (normIdx text.length ((q : Int) + 1 + l)) with hk0 | hk1
              · rw [hk0, List.drop_zero]
                exact Or.inr (Or.inr rfl)
              · refine Or.inr (Or.inl ?_)
                rw [List.length_drop]
                omega
            · intro hdig
              have hds := hdig q hfc
              have hslice : pySlice text 1 (q : Int) = (text.take q).drop 1 :=
                pySlice_one_nat text q
              have hne2 : (text.take q).drop 1 ≠ [] := by
                intro hnil
                rw [hslice, hnil] at hint
                simp [pyInt?] at hint
              have hval := pyInt?_digits _ hne2 hds
              rw [hslice, hval] at hint
              have hl : l = ((decVal ((text.take q).drop 1) : Nat) : Int) := by
                injection hint with h2
                exact h2.symm
              have hlpos : 0 ≤ l := by rw [hl]; positivity
              have he2 : (2 : Int) ≤ (q : Int) + 1 + l := by
                have hq1 : 1 ≤ q := Nat.one_le_iff_ne_zero.mpr hq
                omega
              have hkpos : 1 ≤ normIdx text.length ((q : Int) + 1 + l) := by
                unfold normIdx
                rw [if_neg (by omega)]
                omega
              unfold pySliceFrom
              refine Or.inr ?_
              rw [List.length_drop]
              omega
  exact ⟨fun text rem ty p h => (key text rem ty p h).1,
         fun text rem ty p h hd => (key text rem ty p h).2 hd⟩

/-- Witness for `get_block_progress_amended` at a concrete well-formed
buffer. -/
theorem get_block_progress_amended_witness :
    ("b".toList : List Char) = [] ∨ ("b".toList).length < ("l1:ab".toList).length :=
  get_block_progress_amended.2 ("l1:ab".toList) ("b".toList) (['l']) ("a".toList)
    (by decide) (by decide)

end CodecClaims

/-- Model of `MathRendererMixin.block_math`: renders a block-math token as
`$$text$$`. -/
def block_math (text : List Char) : List Char :=
  "$$".toList ++ text ++ "$$".toList

/-- Model of `MathRendererMixin.block_latex`: renders a named environment token. -/
def block_latex (name text : List Char) : List Char :=
  "\\begin\x7b".toList ++ name ++ "\x7d".toList ++ text
    ++ "\\end\x7b".toList ++ name ++ "\x7d".toList

/-- Model of `MathRendererMixin.math`: renders an inline-math token as `$text$`. -/
def math (text : List Char) : List Char :=
  "$".toList ++ text ++ "$".toList

/-- Closing step of the block-math rule: the text from the first `'$'` after
the opening delimiter must start with a literal `$$`; what follows is the
unconsumed rest. -/
def closeTwoDollars (inner rem : List Char) : Option (List Char × List Char) :=
  match rem with
  | c :: d :: rest2 => if c = '$' ∧ d = '$' then some (inner, rest2) else none
  | _ => none

/-- The block-math rule `^\$\$([^\$]*?)\$\$` (DOTALL) from
`MathBlockMixin.enable_math`: on success, the captured inner text and the
unconsumed rest.  Because the inner character class excludes `'$'`, the
non-greedy group is exactly the run of non-dollar characters after the
opening `$$`, and it must be followed by a closing `$$`. -/
def matchBlockMath (s : List Char) : Option (List Char × List Char) :=
  match s with
  | a :: b :: rest =>
    if a = '$' ∧ b = '$' then
      closeTwoDollars (rest.takeWhile (fun c => c ≠ '$'))
        (rest.dropWhile (fun c => c ≠ '$'))
    else none
  | _ => none

/-- First-occurrence split: `splitOnList pat s = some (pre, post)` exactly
when `pat` occurs in `s`, with `pre` the (minimal) text before the first
occurrence and `post` the text after it.  Implements a non-greedy `(.*?)`
group followed by a literal. -/
def splitOnList (pat : List Char) : List Char → Option (List Char × List Char)
  | [] => if pat = [] then some ([], []) else none
  | c :: rest =>
    if pat.isPrefixOf (c :: rest) then some ([], (c :: rest).drop pat.length)
    else (splitOnList pat rest).map (fun pr => (c :: pr.1, pr.2))

/-- Split the text after `\begin\x7b` into the environment-name group and
the rest: the name is the maximal lowercase run plus an optional `'*'`
(the greedy `[a-z]*\*?` admits no other division that can reach the literal
closing brace). -/
def envNameSplit (after : List Char) : List Char × List Char :=
  match after.dropWhile (fun c => 'a' ≤ c && c ≤ 'z') with
  | '*' :: r => (after.takeWhile (fun c => 'a' ≤ c && c ≤ 'z') ++ ['*'], r)
  | _ => (after.takeWhile (fun c => 'a' ≤ c && c ≤ 'z'),
          after.dropWhile (fun c => 'a' ≤ c && c ≤ 'z'))

/-- After the environment name: expect the literal closing brace, then find
the back-referenced `\end` tag (non-greedy body group). -/
def matchEnvTail (name rest1 : List Char) : Option (List Char × List Char × List Char) :=
  match rest1 with
  | c :: rest2 =>
    if c = '\x7d' then
      (splitOnList ("\\end\x7b".toList ++ name ++ ['\x7d']) rest2).map
        (fun pr => (name, pr.1, pr.2))
    else none
  | [] => none

/-- The block-LaTeX rule matching `\begin` + `name-in-braces` + body +
back-referenced `\end` tag (DOTALL), from `MathBlockMixin.enable_math`: on
success, the environment name, the body, and the unconsumed rest. -/
def matchBlockLatex (s : List Char) : Option (List Char × List Char × List Char) :=
  if ("\\begin\x7b".toList).isPrefixOf s then
    matchEnvTail (envNameSplit (s.drop 7)).1 (envNameSplit (s.drop 7)).2
  else none

/-- Closing step of the inline-math rule: a single closing `'$'`. -/
def closeOneDollar (inner rem : List Char) : Option (List Char × List Char) :=
  match rem with
  | c :: rest2 => if c = '$' then some (inner, rest2) else none
  | [] => none

/-- The inline-math rule `^\$(.+?)\$` (no DOTALL) from
`MathInlineMixin.enable_math`: the group is the shortest nonempty run of
non-newline characters followed by a `'$'`; on success, the group and the
unconsumed rest. -/
def matchInlineMath (s : List Char) : Option (List Char × List Char) :=
  match s with
  | a :: c0 :: rest =>
    if a = '$' then
      if (c0 :: rest.takeWhile (fun c => c ≠ '$')).contains '\n' then none
      else
        closeOneDollar (c0 :: rest.takeWhile (fun c => c ≠ '$'))
          (rest.dropWhile (fun c => c ≠ '$'))
    else none
  | _ => none

/-- The inline rule names of `mistune.InlineLexer.default_rules` (mistune
0.8.x, the API generation this script imports), in the order the lexer tries
them; `"text"` is the plain-text fallback and comes last. -/
def mistuneInlineDefaultRules : List (List Char) :=
  ["escape".toList, "inline_html".toList, "autolink".toList, "url".toList,
   "footnote".toList, "link".toList, "reflink".toList, "nolink".toList,
   "double_emphasis".toList, "emphasis".toList, "code".toList,
   "linebreak".toList, "strikethrough".toList, "text".toList]

/-- Model of `MathInlineMixin.enable_math` on the rule order:
`self.default_rules.insert(0, 'math')` inserts the math rule at position 0
of the ordered rule-name list (the inline lexer tries rules in list order,
first match wins). -/
def enableMathRules (rules : List (List Char)) : List (List Char) :=
  "math".toList :: rules

section MathClaims

theorem prefix_of_isPrefixOf {l1 l2 : List Char}
    (h : l1.isPrefixOf l2 = true) : l1 <+: l2 :=
  Iff.mp List.isPrefixOf_iff_prefix h

theorem splitOnList_eq (pat : List Char) :
    ∀ s pre post, splitOnList pat s = some (pre, post) →
      s = pre ++ pat ++ post := by
  intro s
  induction s with
  | nil =>
    intro pre post h
    unfold splitOnList at h
    split at h
    · next hp =>
      simp only [Option.some.injEq, Prod.mk.injEq] at h
      obtain ⟨h1, h2⟩ := h
      subst h1; subst h2; subst hp
      rfl
    · exact absurd h (by simp)
  | cons c rest ih =>
    intro pre post h
    unfold splitOnList at h
    split at h
    · next hp =>
      have hpre : pat <+: (c :: rest) := prefix_of_isPrefixOf hp
      obtain ⟨t, ht⟩ := hpre
      simp only [Option.some.injEq, Prod.mk.injEq] at h
      obtain ⟨h1, h2⟩ := h
      subst h1
      have hdrop : (c :: rest).drop pat.length = t := by
        rw [← ht]
        have h3 := drop_len_add pat t 0
        simpa using h3
      rw [hdrop] at h2
      subst h2
      simp [← ht]
    · next hp =>
      cases hsp : splitOnList pat rest with
      | none => rw [hsp] at h; exact absurd h (by simp)
      | some pr =>
        obtain ⟨pre1, post1⟩ := pr
        rw [hsp] at h
        simp only [Option.map_some', Option.some.injEq, Prod.mk.injEq] at h
        obtain ⟨h1, h2⟩ := h
        subst h1; subst h2
        have h3 := ih pre1 post1 hsp
        simp [h3]

theorem envNameSplit_recover (after : List Char) :
    (envNameSplit after).1 ++ (envNameSplit after).2 = after := by
  unfold envNameSplit
  split
  · next r heq =>
    have h2 : after.takeWhile (fun c => 'a' ≤ c && c ≤ 'z')
        ++ after.dropWhile (fun c => 'a' ≤ c && c ≤ 'z') = after :=
      List.takeWhile_append_dropWhile _ _
    rw [heq] at h2
    show (after.takeWhile (fun c => 'a' ≤ c && c ≤ 'z') ++ ['*']) ++ r = after
    rw [List.append_assoc]
    exact h2
  · exact List.takeWhile_append_dropWhile _ _

theorem closeTwoDollars_inv (inner rem i2 rest2 : List Char)
    (h : closeTwoDollars inner rem = some (i2, rest2)) :
    i2 = inner ∧ rem = '$' :: '$' :: rest2 := by
  match rem with
  | [] => exact absurd h (by simp [closeTwoDollars])
  | [c] => exact absurd h (by simp [closeTwoDollars])
  | c :: d :: r =>
    simp only [closeTwoDollars] at h
    split at h
    · next hcd =>
      obtain ⟨hc, hd⟩ := hcd
      subst hc; subst hd
      simp only [Option.some.injEq, Prod.mk.injEq] at h
      obtain ⟨h1, h2⟩ := h
      subst h1; subst h2
      exact ⟨rfl, rfl⟩
    · exact absurd h (by simp)

theorem closeOneDollar_inv (inner rem i2 rest2 : List Char)
    (h : closeOneDollar inner rem = some (i2, rest2)) :
    i2 = inner ∧ rem = '$' :: rest2 := by
  match rem with
  | [] => exact absurd h (by simp [closeOneDollar])
  | c :: r =>
    simp only [closeOneDollar] at h
    split at h
    · next hc =>
      subst hc
      simp only [Option.some.injEq, Prod.mk.injEq] at h
      obtain ⟨h1, h2⟩ := h
      subst h1; subst h2
      exact ⟨rfl, rfl⟩
    · exact absurd h (by simp)

/-- Claim C5: math constructs round-trip literally.  Whenever one of the
three math rules matches a prefix of the input, rendering the resulting
token with the corresponding `MathRendererMixin` method reproduces the
consumed text verbatim (so parsing followed by rendering reproduces
`$$x^2$$`, `$y$` and `\begin{align}z\end{align}` exactly, with the inner
text carried literally — the renderers only concatenate delimiters around
the captured group and never re-parse it as Markdown). -/
theorem math_roundtrip :
    (∀ s inner rest, matchBlockMath s = some (inner, rest) →
      block_math inner ++ rest = s) ∧
    (∀ s name text rest, matchBlockLatex s = some (name, text, rest) →
      block_latex name text ++ rest = s) ∧
    (∀ s inner rest, matchInlineMath s = some (inner, rest) →
      math inner ++ rest = s) := by
  refine ⟨?_, ?_, ?_⟩
  · intro s inner rest h
    rcases s with _ | ⟨a, s1⟩
    · exact absurd h (by simp [matchBlockMath])
    rcases s1 with _ | ⟨b, rest0⟩
    · exact absurd h (by simp [matchBlockMath])
    simp only [matchBlockMath] at h
    split at h
    · next hab =>
      obtain ⟨ha, hb⟩ := hab
      subst ha; subst hb
      obtain ⟨h1, h2⟩ := closeTwoDollars_inv _ _ _ _ h
      subst h1
      have hsplit : rest0.takeWhile (fun c => c ≠ '$')
          ++ rest0.dropWhile (fun c => c ≠ '$') = rest0 :=
        List.takeWhile_append_dropWhile _ _
      conv_rhs => rw [← hsplit, h2]
      simp [block_math]
    · exact absurd h (by simp)
  · intro s name text rest h
    unfold matchBlockLatex at h
    split at h
    · next hpre =>
      obtain ⟨t, ht⟩ := prefix_of_isPrefixOf hpre
      have hdrop : s.drop 7 = t := by
        rw [← ht]
        have h3 := drop_len_add ("\\begin\x7b".toList) t 0
        simpa using h3
      rcases henv : envNameSplit (s.drop 7) with ⟨name1, rest1⟩
      rw [henv] at h
      rcases rest1 with _ | ⟨c, rest2⟩
      · exact absurd h (by simp [matchEnvTail])
      simp only [matchEnvTail] at h
      split at h
      · next hc =>
        subst hc
        cases hsp : splitOnList ("\\end\x7b".toList ++ name1 ++ ['\x7d']) rest2 with
        | none => rw [hsp] at h; exact absurd h (by simp)
        | some pr =>
          obtain ⟨text1, rest3⟩ := pr
          rw [hsp] at h
          simp only [Option.map_some', Option.some.injEq, Prod.mk.injEq] at h
          obtain ⟨h1, h2, h3⟩ := h
          subst h1; subst h2; subst h3
          have hrec : name1 ++ '\x7d' :: rest2 = s.drop 7 := by
            have h4 := envNameSplit_recover (s.drop 7)
            rw [henv] at h4
            simpa using h4
          have hrest2 : rest2
              = text1 ++ ("\\end\x7b".toList ++ name1 ++ ['\x7d']) ++ rest3 :=
            splitOnList_eq _ rest2 text1 rest3 hsp
          have hs : s = "\\begin\x7b".toList ++ s.drop 7 := by
            rw [hdrop]; exact ht.symm
          conv_rhs => rw [hs, ← hrec, hrest2]
          simp [block_latex]
      · exact absurd h (by simp)
    · exact absurd h (by simp)
  · intro s inner rest h
    rcases s with _ | ⟨a, s1⟩
    · exact absurd h (by simp [matchInlineMath])
    rcases s1 with _ | ⟨c0, rest0⟩
    · exact absurd h (by simp [matchInlineMath])
    simp only [matchInlineMath] at h
    split at h
    · next ha =>
      subst ha
      split at h
      · exact absurd h (by simp)
      · next hnl =>
        obtain ⟨h1, h2⟩ := closeOneDollar_inv _ _ _ _ h
        subst h1
        have hsplit : rest0.takeWhile (fun c => c ≠ '$')
            ++ rest0.dropWhile (fun c => c ≠ '$') = rest0 :=
          List.takeWhile_append_dropWhile _ _
        conv_rhs => rw [← hsplit, h2]
        simp [math]
    · exact absurd h (by simp)

/-- Witness for `math_roundtrip` at the three concrete constructs named by
the spec. -/
theorem math_roundtrip_witness :
    matchBlockMath ("$$x^2$$".toList) = some ("x^2".toList, []) ∧
    block_math ("x^2".toList) ++ [] = "$$x^2$$".toList ∧
    matchBlockLatex ("\\begin{align}z\\end{align}".toList)
      = some ("align".toList, "z".toList, []) ∧
    block_latex ("align".toList) ("z".toList) ++ []
      = "\\begin{align}z\\end{align}".toList ∧
    matchInlineMath ("$y$".toList) = some ("y".toList, []) ∧
    math ("y".toList) ++ [] = "$y$".toList := by
  refine ⟨by decide, math_roundtrip.1 _ _ _ (by decide),
          by decide, math_roundtrip.2.1 _ _ _ _ (by decide),
          by decide, math_roundtrip.2.2 _ _ _ (by decide)⟩

/-- Claim C6 counterexample: `enable_math` does `default_rules.insert(0,
'math')`, so on mistune's inline rule list the math rule ends up at index 0
— tried first, with the highest precedence — not at the next-to-last
position just before the plain-text fallback `"text"` that the claim
asserts (the inline lexer tries the rules in list order). -/
theorem inline_math_precedence_cex :
    (enableMathRules mistuneInlineDefaultRules).indexOf ("math".toList) = 0 ∧
    (enableMathRules mistuneInlineDefaultRules).length = 15 ∧
    ¬((enableMathRules mistuneInlineDefaultRules).indexOf ("math".toList)
        = (enableMathRules mistuneInlineDefaultRules).length - 2) := by decide

/-- Claim C6 amended: the inline-math rule has the highest precedence among
inline rules: it is inserted at index 0 and tried before every other inline
rule (and in particular before the plain-text fallback). -/
theorem inline_math_precedence_amended :
    (enableMathRules mistuneInlineDefaultRules).indexOf ("math".toList) = 0 ∧
    ∀ r ∈ mistuneInlineDefaultRules,
      (enableMathRules mistuneInlineDefaultRules).indexOf ("math".toList)
        < (enableMathRules mistuneInlineDefaultRules).indexOf r := by decide

/-- Witness for `inline_math_precedence_amended`: math is tried before the
plain-text fallback. -/
theorem inline_math_precedence_amended_witness :
    (enableMathRules mistuneInlineDefaultRules).indexOf ("math".toList)
      < (enableMathRules mistuneInlineDefaultRules).indexOf ("text".toList) :=
  inline_math_precedence_amended.2 ("text".toList) (by decide)

end MathClaims

/-- Error taxonomy of the table path: out-of-bounds list access
(`IndexError` on the fixed-size `colmax` / `align` arrays), `''[0]` on an
empty align value, a decoder failure, and a failed 2-way unpack of
`t2.split('=')`. -/
inductive TErr where
  | oob
  | emptyAlign
  | decodeErr
  | splitErr
  deriving DecidableEq

/-- A parsed table cell: the flags dictionary and the cell text
(`type('',(object,),{'flags':flags,'text':t2})()` in the source). -/
structure PyCell where
  flags : List (List Char × List Char)
  text : List Char
  deriving DecidableEq

/-- Python dict assignment `d[k] = v` on an association list: overwrite an
existing binding, else append. -/
def dictSet (d : List (List Char × List Char)) (k v : List Char) :
    List (List Char × List Char) :=
  if d.any (fun kv => kv.1 = k) then
    d.map (fun kv => if kv.1 = k then (k, v) else kv)
  else d ++ [(k, v)]

/-- Python dict lookup (`k in d` and `d[k]` combined). -/
def dictGet (d : List (List Char × List Char)) (k : List Char) :
    Option (List Char) :=
  (d.find? (fun kv => kv.1 = k)).map (fun kv => kv.2)

/-- Model of `fl, v = t2.split('=')`: succeeds exactly when `t2` contains one `'='`
(otherwise the 2-way unpack raises `ValueError`). -/
def splitEqOnce (s : List Char) : Except TErr (List Char × List Char) :=
  if s.count '=' = 1 then
    .ok (s.takeWhile (fun c => c ≠ '='), (s.dropWhile (fun c => c ≠ '=')).drop 1)
  else .error .splitErr

/-- The inner `while t:` loop of `MdRenderer.table` that decodes the `f` and
`c` chunks of one row: returns the final flags dictionary and the cell
texts in order.  All cells of a row share the one `flags` dict object that
the loop keeps mutating, so every cell ends up with the final dictionary;
the fuel (first argument) is the buffer length, which suffices because every
decode step shortens the buffer. -/
def parseCellsF : Nat → List (List Char × List Char) → List Char →
    Except TErr (List (List Char × List Char) × List (List Char))
  | _, flags, [] => .ok (flags, [])
  | 0, _, _ :: _ => .error .decodeErr
  | f + 1, flags, t =>
    match get_block t with
    | none => .error .decodeErr
    | some (rem, ty, t2) =>
      if ty = ['f'] then
        match splitEqOnce t2 with
        | .error e => .error e
        | .ok fv => parseCellsF f (dictSet flags fv.1 fv.2) rem
      else if ty = ['c'] then
        match parseCellsF f flags rem with
        | .error e => .error e
        | .ok dc => .ok (dc.1, t2 :: dc.2)
      else parseCellsF f flags rem

/-- The outer `while header:` / `while body:` loops of `MdRenderer.table`:
decode `r` chunks into rows of cells (chunks with other tags are skipped). -/
def parseRowsF : Nat → List Char → Except TErr (List (List PyCell))
  | _, [] => .ok []
  | 0, _ :: _ => .error .decodeErr
  | f + 1, s =>
    match get_block s with
    | none => .error .decodeErr
    | some (rem, ty, t) =>
      if ty = ['r'] then
        match parseCellsF t.length [] t with
        | .error e => .error e
        | .ok fc =>
          match parseRowsF f rem with
          | .error e => .error e
          | .ok rows => .ok ((fc.2.map (fun tx => PyCell.mk fc.1 tx)) :: rows)
      else parseRowsF f rem

/-- Row decoding of `MdRenderer.table` on one of its two buffer arguments. -/
def parseRows (s : List Char) : Except TErr (List (List PyCell)) :=
  parseRowsF s.length s

/-- Bounds-checked Python list read `l[i]` (raises `IndexError`, here
`.oob`, when out of range; the source never indexes negatively). -/
def pyGet {α : Type} (l : List α) (i : Nat) : Except TErr α :=
  match l.get? i with
  | some v => .ok v
  | none => .error .oob

/-- Bounds-checked Python list assignment `l[i] = v`. -/
def pySet {α : Type} (l : List α) (i : Nat) (v : α) : Except TErr (List α) :=
  if i < l.length then .ok (l.set i v) else .error .oob

/-- Python `s.ljust(w, fill)` (no-op when `w ≤ len(s)`, also for Python's
negative widths, which Nat subtraction models exactly). -/
def ljust (s : List Char) (w : Nat) (fill : Char) : List Char :=
  s ++ List.replicate (w - s.length) fill

/-- The key of the alignment flag. -/
def alignKey : List Char := "align".toList

/-- The align-flag update for one cell: nothing when the flag is absent,
`''[0]` raises on an empty value, otherwise `align[i] = value[0]`. -/
def alignStep (i : Nat) (fl : Option (List Char)) (align : List (List Char)) :
    Except TErr (List (List Char)) :=
  match fl with
  | none => .ok align
  | some [] => .error .emptyAlign
  | some (ch :: _) => pySet align i [ch]

/-- The scanning loop body of `MdRenderer.table` over one row, starting at
column `i`: `colmax[i] = max(len(col.text), colmax[i])`, and
`align[i] = col.flags['align'][0]` when the flag is present. -/
def scanRowAux : Nat → List PyCell → List Nat → List (List Char) →
    Except TErr (List Nat × List (List Char))
  | _, [], colmax, align => .ok (colmax, align)
  | i, c :: rest, colmax, align =>
    Except.bind (pyGet colmax i) (fun m =>
    Except.bind (pySet colmax i (max c.text.length m)) (fun colmax2 =>
    Except.bind (alignStep i (dictGet c.flags alignKey) align) (fun align2 =>
      scanRowAux (i + 1) rest colmax2 align2)))

/-- The scanning loop of `MdRenderer.table` over `hrows + brows`: tracks
`colscount` (max row length) and the fixed-size `colmax` / `align` arrays. -/
def scanRows : List (List PyCell) → Nat → List Nat → List (List Char) →
    Except TErr (Nat × List Nat × List (List Char))
  | [], cc, colmax, align => .ok (cc, colmax, align)
  | r :: rs, cc, colmax, align =>
    Except.bind (scanRowAux 0 r colmax align) (fun ca =>
      scanRows rs (max r.length cc) ca.1 ca.2)

/-- One output row of `MdRenderer.table`: cells joined by `' | '`, each
left-justified to `colmax[i]`. -/
def rowLineAux : List PyCell → Nat → List Nat → Except TErr (List Char)
  | [], _, _ => .ok []
  | c :: rest, i, colmax =>
    Except.bind (pyGet colmax i) (fun w =>
    Except.bind (rowLineAux rest (i + 1) colmax) (fun r =>
      .ok ((if 0 < i then " | ".toList else []) ++ ljust c.text w ' ' ++ r)))

/-- The header/body output loops of `MdRenderer.table`, one line per row. -/
def rowsLines : List (List PyCell) → List Nat → Except TErr (List Char)
  | [], _ => .ok []
  | r :: rs, colmax =>
    Except.bind (rowLineAux r 0 colmax) (fun line =>
    Except.bind (rowsLines rs colmax) (fun rest =>
      .ok (line ++ '\n' :: rest)))

/-- One separator-row column: `:---:` centred, `:---` left, `---:` right,
`---` default, padded from `colmax[i]` exactly as the source's `ljust`
calls do. -/
def sepCell (a : List Char) (w : Nat) : List Char :=
  if a = ['c'] then ':' :: (ljust ['-'] (w - 2) '-' ++ [':'])
  else if a = ['l'] then ':' :: ljust ['-'] (w - 1) '-'
  else if a = ['r'] then ljust ['-'] (w - 1) '-' ++ [':']
  else ljust ['-'] w '-'

/-- The separator-row loop `for i in range(colscount)` of
`MdRenderer.table`; the first argument is the number of columns still to
emit. -/
def sepAux : Nat → Nat → List Nat → List (List Char) → Except TErr (List Char)
  | 0, _, _, _ => .ok []
  | n + 1, i, colmax, align =>
    Except.bind (pyGet align i) (fun a =>
    Except.bind (pyGet colmax i) (fun w =>
    Except.bind (sepAux n (i + 1) colmax align) (fun r =>
      .ok ((if 0 < i then " | ".toList else []) ++ sepCell a w ++ r))))

/-- Model of `MdRenderer.table(header, body)`: decode both buffers into rows, run the
scanning pass over all rows with the fixed-size 100-entry `colmax` and
`align` arrays, then emit header lines, the separator row, and body lines. -/
def tableRender (header body : List Char) : Except TErr (List Char) :=
  Except.bind (parseRows header) (fun hrows =>
  Except.bind (parseRows body) (fun brows =>
  Except.bind (scanRows (hrows ++ brows) 0 (List.replicate 100 0)
      (List.replicate 100 ([] : List Char))) (fun st =>
  Except.bind (rowsLines hrows st.2.1) (fun hl =>
  Except.bind (sepAux st.1 0 st.2.1 st.2.2) (fun sep =>
  Except.bind (rowsLines brows st.2.1) (fun bl =>
  Except.ok (hl ++ sep ++ '\n' :: bl)))))))

/-- The align flag carried by the cell of `row` in column `i`, when `row` is
laid out starting at column `j` (helper for stating the alignment scan). -/
def rowAlignAt (j : Nat) (row : List PyCell) (i : Nat) : Option (List Char) :=
  if j ≤ i then (row.get? (i - j)).bind (fun c => dictGet c.flags alignKey) else none

/-- All align flags appearing in column `i`, scanning the rows
top-to-bottom. -/
def colAlignFlags (rows : List (List PyCell)) (i : Nat) : List (List Char) :=
  rows.filterMap (fun r => rowAlignAt 0 r i)

/-- The claim's alignment rule, as the spec words it: the first non-empty
`align` flag encountered for the column when scanning rows top-to-bottom. -/
def firstAlignFlagNE (rows : List (List PyCell)) (i : Nat) :
    Option (List Char) :=
  (colAlignFlags rows i).find? (fun v => ¬(v = []))

/-- The last `align` flag encountered for the column when scanning rows
top-to-bottom (what the repeated assignment in the source leaves behind). -/
def lastAlignFlag (rows : List (List PyCell)) (i : Nat) : Option (List Char) :=
  (colAlignFlags rows i).getLast?

/-- The alignment entry the scanning pass of `MdRenderer.table` leaves in
`align[i]` (run from the initial 100-entry state, as `table` does). -/
def scanAlign (rows : List (List PyCell)) (i : Nat) : Option (List Char) :=
  match scanRows rows 0 (List.replicate 100 0) (List.replicate 100 ([] : List Char)) with
  | .ok st => st.2.2.get? i
  | .error _ => none

section TableLemmas

theorem exbind_ok {α β : Type} (a : α) (f : α → Except TErr β) :
    Except.bind (Except.ok a) f = f a := rfl

theorem exbind_error {α β : Type} (e : TErr) (f : α → Except TErr β) :
    Except.bind (Except.error e : Except TErr α) f = Except.error e := rfl

theorem pyGet_some {α : Type} (l : List α) (i : Nat) (v : α)
    (h : l.get? i = some v) : pyGet l i = .ok v := by
  unfold pyGet
  rw [h]

theorem pyGet_lt {α : Type} (l : List α) (i : Nat) (h : i < l.length) :
    ∃ v, l.get? i = some v ∧ pyGet l i = .ok v := by
  obtain ⟨v, hv⟩ : ∃ v, l.get? i = some v := by
    rw [List.get?_eq_getElem?]
    exact ⟨l[i], List.getElem?_eq_getElem h⟩
  exact ⟨v, hv, pyGet_some l i v hv⟩

theorem pySet_lt {α : Type} (l : List α) (i : Nat) (v : α) (h : i < l.length) :
    pySet l i v = .ok (l.set i v) := by
  simp [pySet, h]

theorem get?_set_self' {α : Type} (l : List α) (i : Nat) (v : α)
    (h : i < l.length) : (l.set i v).get? i = some v := by
  rw [List.get?_eq_getElem?, List.getElem?_set_self]
  simp [List.getElem?_eq_getElem, h]

theorem get?_set_ne' {α : Type} (l : List α) (i j : Nat) (v : α) (h : i ≠ j) :
    (l.set i v).get? j = l.get? j := by
  rw [List.get?_eq_getElem?, List.getElem?_set_ne h, ← List.get?_eq_getElem?]

theorem alignStep_none (i : Nat) (align : List (List Char)) :
    alignStep i none align = .ok align := rfl

theorem alignStep_nil (i : Nat) (align : List (List Char)) :
    alignStep i (some []) align = .error .emptyAlign := rfl

theorem alignStep_cons (i : Nat) (ch : Char) (vs : List Char)
    (align : List (List Char)) :
    alignStep i (some (ch :: vs)) align = pySet align i [ch] := rfl

theorem rowAlignAt_nil (j i : Nat) : rowAlignAt j [] i = none := by
  unfold rowAlignAt
  split <;> simp

theorem rowAlignAt_lt (j : Nat) (row : List PyCell) (i : Nat) (h : i < j) :
    rowAlignAt j row i = none := by
  unfold rowAlignAt
  rw [if_neg (by omega)]

theorem rowAlignAt_cons (j i : Nat) (c : PyCell) (rest : List PyCell) :
    rowAlignAt j (c :: rest) i
      = if i = j then dictGet c.flags alignKey
        else rowAlignAt (j + 1) rest i := by
  unfold rowAlignAt
  by_cases hij : i = j
  · subst hij
    rw [if_pos (le_refl i), if_pos rfl]
    simp
  · rw [if_neg hij]
    by_cases hji : j ≤ i
    · rw [if_pos hji, if_pos (by omega)]
      have he : i - j = (i - (j + 1)) + 1 := by omega
      rw [he, List.get?_cons_succ]
    · rw [if_neg hji, if_neg (by omega)]

theorem lastAlignFlag_cons (r : List PyCell) (rs : List (List PyCell)) (i : Nat) :
    lastAlignFlag (r :: rs) i
      = match lastAlignFlag rs i with
        | some w => some w
        | none => rowAlignAt 0 r i := by
  unfold lastAlignFlag colAlignFlags
  cases hra : rowAlignAt 0 r i with
  | none =>
    cases hll : (rs.filterMap (fun r => rowAlignAt 0 r i)).getLast? with
    | none => simp [List.filterMap_cons, hra, hll]
    | some w => simp [List.filterMap_cons, hra, hll]
  | some v =>
    cases hcl : rs.filterMap (fun r => rowAlignAt 0 r i) with
    | nil => simp [List.filterMap_cons, hra, hcl]
    | cons x xs =>
      have hgl : ∃ w, (x :: xs).getLast? = some w := by
        cases hh : (x :: xs).getLast? with
        | none => exact absurd (List.getLast?_eq_none_iff.mp hh) (by simp)
        | some w => exact ⟨w, rfl⟩
      obtain ⟨w, hw⟩ := hgl
      simp [List.filterMap_cons, hra, hcl, hw]

theorem scanRowAux_align :
    ∀ (row : List PyCell) (j : Nat) (colmax : List Nat)
      (align : List (List Char)),
      j + row.length ≤ colmax.length →
      align.length = colmax.length →
      (∀ c ∈ row, dictGet c.flags alignKey ≠ some []) →
      ∃ cm2 al2, scanRowAux j row colmax align = .ok (cm2, al2) ∧
        cm2.length = colmax.length ∧ al2.length = align.length ∧
        ∀ i, al2.get? i
          = match rowAlignAt j row i with
            | some v => some (v.take 1)
            | none => align.get? i := by
  intro row
  induction row with
  | nil =>
    intro j colmax align _ _ _
    refine ⟨colmax, align, rfl, rfl, rfl, fun i => ?_⟩
    rw [rowAlignAt_nil]
  | cons c rest ih =>
    intro j colmax align h1 h2 h3
    have hj : j < colmax.length := by
      simp only [List.length_cons] at h1; omega
    have hja : j < align.length := by omega
    obtain ⟨m, hm, hget⟩ := pyGet_lt colmax j hj
    have hstep : scanRowAux j (c :: rest) colmax align
        = Except.bind (pyGet colmax j) (fun m =>
          Except.bind (pySet colmax j (max c.text.length m)) (fun colmax2 =>
          Except.bind (alignStep j (dictGet c.flags alignKey) align) (fun align2 =>
            scanRowAux (j + 1) rest colmax2 align2))) := rfl
    cases hal : dictGet c.flags alignKey with
    | none =>
      obtain ⟨cm2, al2, heq, hl1, hl2, hchar⟩ :=
        ih (j + 1) (colmax.set j (max c.text.length m)) align
          (by simp only [List.length_set]; simp only [List.length_cons] at h1; omega)
          (by simp only [List.length_set]; omega)
          (fun c' hc' => h3 c' (by simp [hc']))
      refine ⟨cm2, al2, ?_, by rw [hl1]; simp, hl2, fun i => ?_⟩
      · simp only [hstep, hget, exbind_ok,
          pySet_lt colmax j (max c.text.length m) hj, hal, alignStep_none]
        exact heq
      · rw [hchar i, rowAlignAt_cons]
        by_cases hij : i = j
        · subst hij
          rw [if_pos rfl, hal, rowAlignAt_lt _ _ _ (by omega)]
        · rw [if_neg hij]
    | some v =>
      cases v with
      | nil => exact absurd hal (h3 c (by simp))
      | cons ch vs =>
        obtain ⟨cm2, al2, heq, hl1, hl2, hchar⟩ :=
          ih (j + 1) (colmax.set j (max c.text.length m)) (align.set j [ch])
            (by simp only [List.length_set]; simp only [List.length_cons] at h1; omega)
            (by simp only [List.length_set]; omega)
            (fun c' hc' => h3 c' (by simp [hc']))
        refine ⟨cm2, al2, ?_, by rw [hl1]; simp, by rw [hl2]; simp, fun i => ?_⟩
        · simp only [hstep, hget, exbind_ok,
            pySet_lt colmax j (max c.text.length m) hj, hal, alignStep_cons,
            pySet_lt align j [ch] hja]
          exact heq
        · rw [hchar i, rowAlignAt_cons]
          by_cases hij : i = j
          · subst hij
            rw [if_pos rfl, hal, rowAlignAt_lt _ _ _ (by omega)]
            rw [get?_set_self' _ _ _ hja]
            rfl
          · rw [if_neg hij]
            cases hra : rowAlignAt (j + 1) rest i with
            | some w => rfl
            | none =>
              rw [get?_set_ne' align j i [ch] (fun he => hij he.symm)]

theorem scanRows_align :
    ∀ (rows : List (List PyCell)) (cc : Nat) (colmax : List Nat)
      (align : List (List Char)),
      (∀ r ∈ rows, r.length ≤ colmax.length) →
      align.length = colmax.length →
      (∀ r ∈ rows, ∀ c ∈ r, dictGet c.flags alignKey ≠ some []) →
      ∃ cc2 cm2 al2, scanRows rows cc colmax align = .ok (cc2, cm2, al2) ∧
        cm2.length = colmax.length ∧ al2.length = align.length ∧
        ∀ i, al2.get? i
          = match lastAlignFlag rows i with
            | some v => some (v.take 1)
            | none => align.get? i := by
  intro rows
  induction rows with
  | nil =>
    intro cc colmax align _ _ _
    refine ⟨cc, colmax, align, rfl, rfl, rfl, fun i => ?_⟩
    rw [show lastAlignFlag [] i = none from rfl]
  | cons r rs ih =>
    intro cc colmax align h1 h2 h3
    obtain ⟨cm1, al1, heq1, hl1, hl2, hchar1⟩ :=
      scanRowAux_align r 0 colmax align (by simpa using h1 r (by simp)) h2
        (fun c hc => h3 r (by simp) c hc)
    obtain ⟨cc2, cm2, al2, heq2, hl3, hl4, hchar2⟩ :=
      ih (max r.length cc) cm1 al1
        (fun rr hrr => by rw [hl1]; exact h1 rr (by simp [hrr]))
        (by omega)
        (fun rr hrr c hc => h3 rr (by simp [hrr]) c hc)
    have hstep : scanRows (r :: rs) cc colmax align
        = Except.bind (scanRowAux 0 r colmax align) (fun ca =>
            scanRows rs (max r.length cc) ca.1 ca.2) := rfl
    refine ⟨cc2, cm2, al2, ?_, by omega, by omega, fun i => ?_⟩
    · simp only [hstep, heq1, exbind_ok]
      exact heq2
    · rw [hchar2 i, lastAlignFlag_cons]
      cases hl : lastAlignFlag rs i with
      | some w => rfl
      | none => exact hchar1 i

end TableLemmas

section TableClaims

deriving instance DecidableEq for Except


theorem scanRowAux_no_oob :
    ∀ (row : List PyCell) (j : Nat) (colmax : List Nat)
      (align : List (List Char)),
      j + row.length ≤ colmax.length →
      align.length = colmax.length →
      (∃ cm2 al2, scanRowAux j row colmax align = .ok (cm2, al2) ∧
        cm2.length = colmax.length ∧ al2.length = align.length) ∨
      scanRowAux j row colmax align = .error .emptyAlign := by
  intro row
  induction row with
  | nil =>
    intro j colmax align _ _
    exact Or.inl ⟨colmax, align, rfl, rfl, rfl⟩
  | cons c rest ih =>
    intro j colmax align h1 h2
    have hj : j < colmax.length := by
      simp only [List.length_cons] at h1; omega
    have hja : j < align.length := by omega
    obtain ⟨m, hm, hget⟩ := pyGet_lt colmax j hj
    have hstep : scanRowAux j (c :: rest) colmax align
        = Except.bind (pyGet colmax j) (fun m =>
          Except.bind (pySet colmax j (max c.text.length m)) (fun colmax2 =>
          Except.bind (alignStep j (dictGet c.flags alignKey) align) (fun align2 =>
            scanRowAux (j + 1) rest colmax2 align2))) := rfl
    cases hal : dictGet c.flags alignKey with
    | none =>
      rcases ih (j + 1) (colmax.set j (max c.text.length m)) align
          (by simp only [List.length_set]; simp only [List.length_cons] at h1; omega)
          (by simp only [List.length_set]; omega) with
        ⟨cm2, al2, heq, hl1, hl2⟩ | herr
      · refine Or.inl ⟨cm2, al2, ?_, by rw [hl1]; simp, hl2⟩
        simp only [hstep, hget, exbind_ok,
          pySet_lt colmax j (max c.text.length m) hj, hal, alignStep_none]
        exact heq
      · refine Or.inr ?_
        simp only [hstep, hget, exbind_ok,
          pySet_lt colmax j (max c.text.length m) hj, hal, alignStep_none]
        exact herr
    | some v =>
      cases v with
      | nil =>
        refine Or.inr ?_
        simp only [hstep, hget, exbind_ok,
          pySet_lt colmax j (max c.text.length m) hj, hal, alignStep_nil,
          exbind_error]
      | cons ch vs =>
        rcases ih (j + 1) (colmax.set j (max c.text.length m)) (align.set j [ch])
            (by simp only [List.length_set]; simp only [List.length_cons] at h1; omega)
            (by simp only [List.length_set]; omega) with
          ⟨cm2, al2, heq, hl1, hl2⟩ | herr
        · refine Or.inl ⟨cm2, al2, ?_, by rw [hl1]; simp, by rw [hl2]; simp⟩
          simp only [hstep, hget, exbind_ok,
            pySet_lt colmax j (max c.text.length m) hj, hal, alignStep_cons,
            pySet_lt align j [ch] hja]
          exact heq
        · refine Or.inr ?_
          simp only [hstep, hget, exbind_ok,
            pySet_lt colmax j (max c.text.length m) hj, hal, alignStep_cons,
            pySet_lt align j [ch] hja]
          exact herr

theorem scanRows_no_oob :
    ∀ (rows : List (List PyCell)) (cc : Nat) (colmax : List Nat)
      (align : List (List Char)),
      (∀ r ∈ rows, r.length ≤ colmax.length) →
      align.length = colmax.length →
      (∃ cc2 cm2 al2, scanRows rows cc colmax align = .ok (cc2, cm2, al2) ∧
        cm2.length = colmax.length ∧ al2.length = align.length ∧
        cc2 ≤ max cc colmax.length) ∨
      scanRows rows cc colmax align = .error .emptyAlign := by
  intro rows
  induction rows with
  | nil =>
    intro cc colmax align _ _
    exact Or.inl ⟨cc, colmax, align, rfl, rfl, rfl, by omega⟩
  | cons r rs ih =>
    intro cc colmax align h1 h2
    have hstep : scanRows (r :: rs) cc colmax align
        = Except.bind (scanRowAux 0 r colmax align) (fun ca =>
            scanRows rs (max r.length cc) ca.1 ca.2) := rfl
    rcases scanRowAux_no_oob r 0 colmax align (by simpa using h1 r (by simp)) h2 with
      ⟨cm1, al1, heq1, hl1, hl2⟩ | herr1
    · rcases ih (max r.length cc) cm1 al1
          (fun rr hrr => by rw [hl1]; exact h1 rr (by simp [hrr]))
          (by omega) with
        ⟨cc2, cm2, al2, heq2, hl3, hl4, hcc⟩ | herr2
      · refine Or.inl ⟨cc2, cm2, al2, ?_, by omega, by omega, ?_⟩
        · simp only [hstep, heq1, exbind_ok]
          exact heq2
        · have hr : r.length ≤ colmax.length := h1 r (by simp)
          rw [hl1] at hcc
          omega
      · refine Or.inr ?_
        simp only [hstep, heq1, exbind_ok]
        exact herr2
    · refine Or.inr ?_
      simp only [hstep, herr1, exbind_error]

theorem rowLineAux_ok :
    ∀ (cells : List PyCell) (i : Nat) (colmax : List Nat),
      i + cells.length ≤ colmax.length →
      ∃ s, rowLineAux cells i colmax = .ok s := by
  intro cells
  induction cells with
  | nil => intro i colmax _; exact ⟨[], rfl⟩
  | cons c rest ih =>
    intro i colmax h
    have hi : i < colmax.length := by
      simp only [List.length_cons] at h; omega
    obtain ⟨w, hw, hget⟩ := pyGet_lt colmax i hi
    obtain ⟨s, hs⟩ := ih (i + 1) colmax
      (by simp only [List.length_cons] at h; omega)
    refine ⟨(if 0 < i then " | ".toList else []) ++ ljust c.text w ' ' ++ s, ?_⟩
    have hstep : rowLineAux (c :: rest) i colmax
        = Except.bind (pyGet colmax i) (fun w =>
          Except.bind (rowLineAux rest (i + 1) colmax) (fun r =>
            .ok ((if 0 < i then " | ".toList else []) ++ ljust c.text w ' ' ++ r))) := rfl
    simp only [hstep, hget, hs, exbind_ok]

theorem rowsLines_ok :
    ∀ (rows : List (List PyCell)) (colmax : List Nat),
      (∀ r ∈ rows, r.length ≤ colmax.length) →
      ∃ s, rowsLines rows colmax = .ok s := by
  intro rows
  induction rows with
  | nil => intro colmax _; exact ⟨[], rfl⟩
  | cons r rs ih =>
    intro colmax h
    obtain ⟨line, hline⟩ := rowLineAux_ok r 0 colmax (by simpa using h r (by simp))
    obtain ⟨rest, hrest⟩ := ih colmax (fun rr hrr => h rr (by simp [hrr]))
    refine ⟨line ++ '\n' :: rest, ?_⟩
    have hstep : rowsLines (r :: rs) colmax
        = Except.bind (rowLineAux r 0 colmax) (fun line =>
          Except.bind (rowsLines rs colmax) (fun rest =>
            .ok (line ++ '\n' :: rest))) := rfl
    simp only [hstep, hline, hrest, exbind_ok]

theorem sepAux_ok :
    ∀ (n i : Nat) (colmax : List Nat) (align : List (List Char)),
      i + n ≤ colmax.length → i + n ≤ align.length →
      ∃ s, sepAux n i colmax align = .ok s := by
  intro n
  induction n with
  | zero => intro i colmax align _ _; exact ⟨[], rfl⟩
  | succ n ih =>
    intro i colmax align h1 h2
    obtain ⟨a, ha, hgeta⟩ := pyGet_lt align i (by omega)
    obtain ⟨w, hw, hgetw⟩ := pyGet_lt colmax i (by omega)
    obtain ⟨s, hs⟩ := ih (i + 1) colmax align (by omega) (by omega)
    refine ⟨(if 0 < i then " | ".toList else []) ++ sepCell a w ++ s, ?_⟩
    have hstep : sepAux (n + 1) i colmax align
        = Except.bind (pyGet align i) (fun a =>
          Except.bind (pyGet colmax i) (fun w =>
          Except.bind (sepAux n (i + 1) colmax align) (fun r =>
            .ok ((if 0 < i then " | ".toList else []) ++ sepCell a w ++ r)))) := rfl
    simp only [hstep, hgeta, hgetw, hs, exbind_ok]

/-- Claim C9: for every table whose parsed rows all have at most 100 cells,
rendering never makes an out-of-bounds access to the fixed-size 100-entry
column-width and column-alignment arrays (it may still fail for other
reasons, e.g. an empty align value, but never with `.oob`; tables wider than
100 columns are outside the precondition and unsupported). -/
theorem table_no_oob (header body : List Char)
    (hrows brows : List (List PyCell))
    (hh : parseRows header = .ok hrows)
    (hb : parseRows body = .ok brows)
    (hlen : ∀ r ∈ hrows ++ brows, r.length ≤ 100) :
    tableRender header body ≠ .error TErr.oob := by
  unfold tableRender
  rw [hh]
  simp only [exbind_ok]
  rw [hb]
  simp only [exbind_ok]
  rcases scanRows_no_oob (hrows ++ brows) 0 (List.replicate 100 0)
      (List.replicate 100 ([] : List Char))
      (by simpa using hlen) (by simp) with
    ⟨cc2, cm2, al2, heq, hl1, hl2, hcc⟩ | herr
  · rw [heq]
    simp only [exbind_ok]
    have hcm : cm2.length = 100 := by simpa using hl1
    have hal : al2.length = 100 := by simpa using hl2
    have hcc2 : cc2 ≤ 100 := by simp at hcc; omega
    obtain ⟨hl, hhl⟩ := rowsLines_ok hrows cm2
      (fun r hr => by rw [hcm]; exact hlen r (by simp [hr]))
    obtain ⟨sep, hsep⟩ := sepAux_ok cc2 0 cm2 al2 (by omega) (by omega)
    obtain ⟨bl, hbl⟩ := rowsLines_ok brows cm2
      (fun r hr => by rw [hcm]; exact hlen r (by simp [hr]))
    rw [hhl]
    simp only [exbind_ok]
    rw [hsep]
    simp only [exbind_ok]
    rw [hbl]
    simp only [exbind_ok]
    simp
  · rw [herr]
    simp only [exbind_error]
    simp

/-- Witness for `table_no_oob` at a concrete two-row, one-column table. -/
theorem table_no_oob_witness :
    tableRender ("r14:f7:align=lc1:A".toList) ("r14:f7:align=rc1:B".toList)
      ≠ .error TErr.oob :=
  table_no_oob _ _ [[PyCell.mk [("align".toList, "l".toList)] ("A".toList)]]
    [[PyCell.mk [("align".toList, "r".toList)] ("B".toList)]]
    (by decide) (by decide) (by decide)

/-- Claim C8 counterexample: a table whose header cell carries `align=l` and
whose body cell carries `align=r` in the same column.  The first non-empty
align flag scanning top-to-bottom is `l`, but the scanning pass leaves `r`
in `align[0]` (each occurrence overwrites the entry, so the last one wins),
and the rendered separator row is the right-aligned `-:`, not `:-`. -/
theorem table_align_cex :
    parseRows ("r14:f7:align=lc1:A".toList)
      = .ok [[PyCell.mk [("align".toList, "l".toList)] ("A".toList)]] ∧
    parseRows ("r14:f7:align=rc1:B".toList)
      = .ok [[PyCell.mk [("align".toList, "r".toList)] ("B".toList)]] ∧
    firstAlignFlagNE
      ([[PyCell.mk [("align".toList, "l".toList)] ("A".toList)]]
        ++ [[PyCell.mk [("align".toList, "r".toList)] ("B".toList)]]) 0
      = some ("l".toList) ∧
    scanAlign
      ([[PyCell.mk [("align".toList, "l".toList)] ("A".toList)]]
        ++ [[PyCell.mk [("align".toList, "r".toList)] ("B".toList)]]) 0
      = some ("r".toList) ∧
    ¬(scanAlign
        ([[PyCell.mk [("align".toList, "l".toList)] ("A".toList)]]
          ++ [[PyCell.mk [("align".toList, "r".toList)] ("B".toList)]]) 0
      = firstAlignFlagNE
        ([[PyCell.mk [("align".toList, "l".toList)] ("A".toList)]]
          ++ [[PyCell.mk [("align".toList, "r".toList)] ("B".toList)]]) 0) ∧
    tableRender ("r14:f7:align=lc1:A".toList) ("r14:f7:align=rc1:B".toList)
      = .ok ("A\n-:\nB\n".toList) := by decide

/-- Claim C8 amended: the alignment used for each column equals the first
character of the value of the LAST `align` flag encountered for that column
when scanning the rows top-to-bottom (header rows before body rows) — each
occurrence overwrites `align[i]`, so the final assignment wins; empty align
values are not skipped but raise. -/
theorem table_align_last (rows : List (List PyCell))
    (h100 : ∀ r ∈ rows, r.length ≤ 100)
    (hne : ∀ r ∈ rows, ∀ c ∈ r, dictGet c.flags alignKey ≠ some [])
    (i : Nat) (hi : i < 100) :
    scanAlign rows i
      = some (match lastAlignFlag rows i with
              | none => ([] : List Char)
              | some v => v.take 1) := by
  obtain ⟨cc2, cm2, al2, heq, hl1, hl2, hchar⟩ :=
    scanRows_align rows 0 (List.replicate 100 0)
      (List.replicate 100 ([] : List Char))
      (by simpa using h100) (by simp) hne
  unfold scanAlign
  rw [heq]
  simp only []
  rw [hchar i]
  cases hl : lastAlignFlag rows i with
  | none =>
    rw [List.get?_eq_getElem?, List.getElem?_replicate]
    simp [hi]
  | some v => rfl

/-- Witness for `table_align_last` at the counterexample table: the scan
leaves the LAST flag `r`. -/
theorem table_align_last_witness :
    scanAlign
      [[PyCell.mk [("align".toList, "l".toList)] ("A".toList)],
       [PyCell.mk [("align".toList, "r".toList)] ("B".toList)]] 0
      = some ("r".toList) := by
  have h := table_align_last
    [[PyCell.mk [("align".toList, "l".toList)] ("A".toList)],
     [PyCell.mk [("align".toList, "r".toList)] ("B".toList)]]
    (by decide) (by decide) 0 (by decide)
  simpa using h

end TableClaims

/-- Characters allowed in a URL scheme after the first (letters, digits,
`+`, `-`, `.`), per `urllib.parse`. -/
def schemeChar (c : Char) : Bool :=
  c.isAlphanum || c = '+' || c = '-' || c = '.'

/-- Model of `urlparse(src).scheme` (CPython `urlsplit`): the lowercased text before
the first `':'` when it starts with an ASCII letter and contains only
scheme characters; otherwise the empty scheme. -/
def urlScheme (s : List Char) : List Char :=
  match findColon s with
  | none => []
  | some i =>
    if i = 0 then []
    else
      match s.head? with
      | some c0 =>
        if c0.isAlpha ∧ (s.take i).all schemeChar then
          (s.take i).map Char.toLower
        else []
      | none => []

/-- Model of `os.path.join` (posix): an absolute second component wins; otherwise
join with a single `'/'` unless one is already there. -/
def pathJoin (a b : List Char) : List Char :=
  if b.head? = some '/' then b
  else if a = [] then b
  else if a.getLast? = some '/' then a ++ b
  else a ++ '/' :: b

/-- Index of the last occurrence of `c` in `s` (Python `str.rfind`,
`none` for -1). -/
def rfindIdx (c : Char) (s : List Char) : Option Nat :=
  (s.reverse.findIdx? (fun x => x = c)).map (fun k => s.length - 1 - k)

/-- Model of `os.path.splitext(p)[-1][1:]`: the extension after the last dot of the
final path component, empty when there is no dot after the last `'/'` or
when only leading dots precede it. -/
def extOf (p : List Char) : List Char :=
  match rfindIdx '.' p with
  | none => []
  | some d =>
    let start :=
      match rfindIdx '/' p with
      | none => 0
      | some s2 => s2 + 1
    if start ≤ d ∧ ((p.drop start).take (d - start)).any (fun x => x ≠ '.') then
      p.drop (d + 1)
    else []

/-- Model of `EmbedImagesRenderer._mime_types`, the fixed extension-to-MIME table. -/
def mimeTable : List (List Char × List Char) :=
  [("gif".toList, "image/gif".toList),
   ("pbm".toList, "image/x-portable-bitmap".toList),
   ("pgm".toList, "image/x-portable-graymap".toList),
   ("ppm".toList, "image/x-portable-pixmap".toList),
   ("tiff".toList, "image/tiff".toList),
   ("xbm".toList, "image/x-xbitmap".toList),
   ("jpg".toList, "image/jpeg".toList),
   ("jpeg".toList, "image/jpeg".toList),
   ("bmp".toList, "image/x-ms-bmp".toList),
   ("png".toList, "image/png".toList),
   ("svg".toList, "image/svg+xml".toList)]

/-- Model of `EmbedImagesRenderer._mime_type`. -/
def mimeType (fname : List Char) : Option (List Char) :=
  dictGet mimeTable (extOf fname)

/-- The base64 alphabet (RFC 4648, as used by `base64.b64encode`). -/
def b64Alphabet : List Char :=
  "ABCDEFGHIJKLMNOPQRSTUVWXYZabcdefghijklmnopqrstuvwxyz0123456789+/".toList

/-- The base64 character of a 6-bit group. -/
def b64c (n : Nat) : Char := b64Alphabet.getD n 'A'

/-- Model of `base64.b64encode` on a byte list (each element < 256): standard base64
with `'='` padding. -/
def b64encode : List Nat → List Char
  | [] => []
  | [a] => [b64c (a / 4), b64c (a % 4 * 16), '=', '=']
  | [a, b] => [b64c (a / 4), b64c (a % 4 * 16 + b / 16), b64c (b % 16 * 4), '=']
  | a :: b :: c :: rest =>
    b64c (a / 4) :: b64c (a % 4 * 16 + b / 16) :: b64c (b % 16 * 4 + c / 64)
      :: b64c (c % 64) :: b64encode rest

/-- Model of `"data:{mimetype};base64,{enc}"`. -/
def dataUri (mt : List Char) (content : List Nat) : List Char :=
  "data:".toList ++ mt ++ ";base64,".toList ++ b64encode content

/-- The characters Python `quote` never encodes with the `safe` set used by
`mistune.escape_link` (`':/?#@' + "!$&()*+,;=" + '%'` plus the always-safe
letters, digits and `'_.-~'`). -/
def quoteKeep (c : Char) : Bool :=
  c.isAlphanum || c = '_' || c = '.' || c = '-' || c = '~'
    || c ∈ (":/?#@!$&()*+,;=%".toList)

/-- An uppercase hex digit. -/
def hexDigitU (n : Nat) : Char := ("0123456789ABCDEF".toList).getD n '0'

/-- UTF-8 encoding of one character (what Python `quote` percent-encodes). -/
def utf8Bytes (c : Char) : List Nat :=
  let n := c.toNat
  if n < 128 then [n]
  else if n < 2048 then [192 + n / 64, 128 + n % 64]
  else if n < 65536 then [224 + n / 4096, 128 + n / 64 % 64, 128 + n % 64]
  else [240 + n / 262144, 128 + n / 4096 % 64, 128 + n / 64 % 64, 128 + n % 64]

/-- Percent-encoding of one character, byte by byte. -/
def pctEnc (c : Char) : List Char :=
  (utf8Bytes c).foldr
    (fun b acc => '%' :: hexDigitU (b / 16) :: hexDigitU (b % 16) :: acc) []

/-- Model of `urllib.parse.quote` with `mistune.escape_link`'s safe set. -/
def urlQuote : List Char → List Char
  | [] => []
  | c :: rest => (if quoteKeep c then [c] else pctEnc c) ++ urlQuote rest

/-- The apostrophe character (code 39), named to keep escapes out of
character literals. -/
def apos : Char := Char.ofNat 39

/-- A regex word character (`\w`, ASCII). -/
def isWordChar (c : Char) : Bool := c.isAlphanum || c = '_'

/-- Does the text after an `'&'` look like an HTML entity
(`#?\w+;`, the negative lookahead of mistune's smart-amp pattern)? -/
def isEntityTail (s : List Char) : Bool :=
  let s2 := match s with | '#' :: t => t | _ => s
  let n := (s2.takeWhile isWordChar).length
  decide (0 < n) && decide (s2.get? n = some ';')

/-- The smart-amp pass of `mistune.escape`: replace `'&'` by `&amp;` unless
an entity follows. -/
def smartAmp : List Char → List Char
  | [] => []
  | c :: rest =>
    if c = '&' then
      if isEntityTail rest then '&' :: smartAmp rest
      else "&amp;".toList ++ smartAmp rest
    else c :: smartAmp rest

/-- One global single-character replacement (Python `str.replace`). -/
def replaceAllChar (c : Char) (repl : List Char) : List Char → List Char
  | [] => []
  | x :: rest => (if x = c then repl else [x]) ++ replaceAllChar c repl rest

/-- Model of `mistune.escape(text, quote=True)`: smart-amp, then `<`, `>`, `"`, `'`. -/
def htmlEscapeQ (s : List Char) : List Char :=
  replaceAllChar apos ("&#39;".toList)
    (replaceAllChar '"' ("&quot;".toList)
      (replaceAllChar '>' ("&gt;".toList)
        (replaceAllChar '<' ("&lt;".toList) (smartAmp s))))

/-- Model of `mistune.escape(text)` with the default `quote=False`. -/
def htmlEscapeNoQ (s : List Char) : List Char :=
  replaceAllChar '>' ("&gt;".toList)
    (replaceAllChar '<' ("&lt;".toList) (smartAmp s))

/-- Model of `mistune.escape_link`: `escape(quote(link, safe), quote=True)`. -/
def escape_link (s : List Char) : List Char := htmlEscapeQ (urlQuote s)

/-- The attribute tail of `EmbedImagesRenderer._html_image` (everything the
method appends after `'<img src="..."'`). -/
def htmlImageAttrs (title text : List Char) (width height : Option Nat) :
    List Char :=
  (if text ≠ [] then " alt=\"".toList ++ text ++ "\"".toList else [])
    ++ (match width with
        | some w => " width=\"".toList ++ toDec w ++ "\"".toList
        | none => [])
    ++ (match height with
        | some hh => " height=\"".toList ++ toDec hh ++ "\"".toList
        | none => [])
    ++ (if title ≠ [] then
          " title=\"".toList ++ htmlEscapeNoQ title ++ "\"".toList
        else [])
    ++ " />".toList

/-- Model of `EmbedImagesRenderer._html_image` (an empty `title`/`text` models Python
`None` or `''`, both falsy in the source's truthiness tests). -/
def html_image (src title text : List Char) (width height : Option Nat) :
    List Char :=
  "<img src=\"".toList ++ escape_link src ++ "\"".toList
    ++ htmlImageAttrs title text width height

/-- Model of `MdRenderer.link`. -/
def mdLink (link title text : List Char) (image : Bool) : List Char :=
  (if image then "!".toList else []) ++ "[".toList ++ text ++ "](".toList
    ++ link ++ ")".toList
    ++ (if title ≠ [] then "\"".toList ++ title ++ "\"".toList else [])

/-- Model of `MdRenderer.image`: calls `self.link(src, title, text, image=True)` but
has no `return` statement, so the Python call evaluates the link text and
returns `None`. -/
def mdImage (src title text : List Char) : Option (List Char) :=
  let _ := mdLink src title text true
  none

/-- Errors of `EmbedImagesRenderer._to_data_src`: `OSError` for a missing
file, `ValueError` for an unknown extension. -/
inductive EmbedErr where
  | notFound (path : List Char)
  | unknownMime (src : List Char)
  deriving DecidableEq

/-- Configuration of `EmbedImagesRenderer`: the root path, the
`convert_svgs` flag, and the external rasteriser (`cairosvg.svg2png` at
scale 2.5 followed by `PIL` reading back the pixel size), modelled as a
function from the SVG bytes to the PNG bytes and raster pixel dimensions. -/
structure EmbedCfg where
  root_path : List Char
  convert_svgs : Bool
  rasterize : List Nat → List Nat × Nat × Nat

/-- The read-only filesystem seen by the embedding pass: path to bytes. -/
structure Fs where
  files : List (List Char × List Nat)

/-- Model of `os.path.exists` plus `open(...).read()` combined. -/
def fsGet (fs : Fs) (p : List Char) : Option (List Nat) :=
  (fs.files.find? (fun kv => kv.1 = p)).map (fun kv => kv.2)

/-- Model of `EmbedImagesRenderer._to_data_src`: `.ok none` for a non-local URL
(non-empty scheme), errors for a missing file or unknown extension,
otherwise the data URI with the computed display dimensions (the SVG branch
reports `int(raster/2.5) = 2*raster/5`; other media types carry no
dimensions). -/
def to_data_src (cfg : EmbedCfg) (fs : Fs) (src : List Char) :
    Except EmbedErr (Option (List Char × Option Nat × Option Nat)) :=
  if urlScheme src ≠ [] then .ok none
  else
    match fsGet fs (pathJoin cfg.root_path src) with
    | none => .error (.notFound (pathJoin cfg.root_path src))
    | some content =>
      match mimeType src with
      | none => .error (.unknownMime src)
      | some mt =>
        if cfg.convert_svgs ∧ mt = "image/svg+xml".toList then
          .ok (some (dataUri ("image/png".toList) (cfg.rasterize content).1,
            some ((cfg.rasterize content).2.1 * 2 / 5),
            some ((cfg.rasterize content).2.2 * 2 / 5)))
        else .ok (some (dataUri mt content, none, none))

/-- Model of `EmbedImagesRenderer.image`: substitute the resolved data URI as an
HTML `img` tag, or fall back to the default renderer output (`MdRenderer.image`,
which returns Python `None`) when the source is not a local path. -/
def embedImage (cfg : EmbedCfg) (fs : Fs) (src title text : List Char) :
    Except EmbedErr (Option (List Char)) :=
  match to_data_src cfg fs src with
  | .error e => .error e
  | .ok none => .ok (mdImage src title text)
  | .ok (some dwh) => .ok (some (html_image dwh.1 title text dwh.2.1 dwh.2.2))

section EmbedClaims

/-- Characters that pass both `quote` (kept) and `escape` (not replaced):
every character of a data URI is one of these. -/
def dataUriSafe (c : Char) : Prop :=
  quoteKeep c = true ∧ ¬(c ∈ (['&', '<', '>', '"', apos] : List Char))

instance (c : Char) : Decidable (dataUriSafe c) := by
  unfold dataUriSafe
  infer_instance

theorem urlQuote_id (s : List Char) (h : ∀ c ∈ s, quoteKeep c = true) :
    urlQuote s = s := by
  induction s with
  | nil => rfl
  | cons c rest ih =>
    unfold urlQuote
    rw [if_pos (h c (by simp)), ih (fun x hx => h x (by simp [hx]))]
    rfl

theorem smartAmp_id (s : List Char) (h : ∀ c ∈ s, c ≠ '&') :
    smartAmp s = s := by
  induction s with
  | nil => rfl
  | cons c rest ih =>
    unfold smartAmp
    rw [if_neg (h c (by simp)), ih (fun x hx => h x (by simp [hx]))]

theorem replaceAllChar_id (c : Char) (repl : List Char) (s : List Char)
    (h : ∀ x ∈ s, x ≠ c) : replaceAllChar c repl s = s := by
  induction s with
  | nil => rfl
  | cons x rest ih =>
    unfold replaceAllChar
    rw [if_neg (h x (by simp)), ih (fun y hy => h y (by simp [hy]))]
    rfl

theorem escape_link_id (s : List Char) (h : ∀ c ∈ s, dataUriSafe c) :
    escape_link s = s := by
  have hq : urlQuote s = s := urlQuote_id s (fun c hc => (h c hc).1)
  have hns : ∀ x, x ∈ (['&', '<', '>', '"', apos] : List Char) →
      ∀ c ∈ s, c ≠ x := by
    intro x hx c hc he
    subst he
    exact (h c hc).2 hx
  unfold escape_link htmlEscapeQ
  rw [hq, smartAmp_id s (hns '&' (by simp)),
      replaceAllChar_id _ _ s (hns '<' (by simp)),
      replaceAllChar_id _ _ s (hns '>' (by simp)),
      replaceAllChar_id _ _ s (hns '"' (by simp)),
      replaceAllChar_id _ _ s (hns apos (by simp))]

theorem b64Alphabet_safe : ∀ c ∈ b64Alphabet, dataUriSafe c := by decide

theorem b64c_safe (n : Nat) : dataUriSafe (b64c n) := by
  unfold b64c
  rcases Nat.lt_or_ge n b64Alphabet.length with h | h
  · have hmem : b64Alphabet.getD n 'A' ∈ b64Alphabet := by
      rw [List.getD_eq_getElem?_getD, List.getElem?_eq_getElem h]
      exact List.getElem_mem h
    exact b64Alphabet_safe _ hmem
  · rw [List.getD_eq_getElem?_getD, List.getElem?_eq_none (by omega)]
    decide

theorem b64encode_safe : ∀ (bs : List Nat), ∀ c ∈ b64encode bs, dataUriSafe c
  | [] => by simp [b64encode]
  | [a] => by
    intro c hc
    simp only [b64encode, List.mem_cons, List.not_mem_nil, or_false] at hc
    rcases hc with h | h | h | h <;> subst h
    · exact b64c_safe _
    · exact b64c_safe _
    · decide
    · decide
  | [a, b] => by
    intro c hc
    simp only [b64encode, List.mem_cons, List.not_mem_nil, or_false] at hc
    rcases hc with h | h | h | h <;> subst h
    · exact b64c_safe _
    · exact b64c_safe _
    · exact b64c_safe _
    · decide
  | a :: b :: d :: rest => by
    intro c hc
    simp only [b64encode, List.mem_cons] at hc
    rcases hc with h | h | h | h | h
    · subst h; exact b64c_safe _
    · subst h; exact b64c_safe _
    · subst h; exact b64c_safe _
    · subst h; exact b64c_safe _
    · exact b64encode_safe rest c h

theorem dataUri_png_safe (content : List Nat) :
    ∀ c ∈ dataUri ("image/png".toList) content, dataUriSafe c := by
  intro c hc
  simp only [dataUri, List.mem_append] at hc
  rcases hc with ((h | h) | h) | h
  · revert c h; decide
  · revert c h; decide
  · revert c h; decide
  · exact b64encode_safe content c h

/-- Claim C2: a remote image reference is untouched.  For every `src` whose
URL scheme is non-empty, `EmbedImagesRenderer.image` performs no data-URI
substitution and returns exactly the default renderer's output
`MdRenderer.image(src, title, text)` for the unchanged `src` (that default
output is Python `None`, since `MdRenderer.image` lacks a `return`). -/
theorem remote_image_untouched (cfg : EmbedCfg) (fs : Fs)
    (src title text : List Char) (h : urlScheme src ≠ []) :
    embedImage cfg fs src title text = .ok (mdImage src title text) := by
  unfold embedImage to_data_src
  rw [if_pos h]

/-- Witness for `remote_image_untouched` at `http://example.com/x.png`. -/
theorem remote_image_untouched_witness :
    embedImage ⟨"lab".toList, true, fun b => (b, 0, 0)⟩ ⟨[]⟩
      ("http://example.com/x.png".toList) [] ("alt".toList)
      = .ok (mdImage ("http://example.com/x.png".toList) [] ("alt".toList)) :=
  remote_image_untouched _ _ _ _ _ (by decide)

/-- Claim C7: for a `src` with an empty scheme, resolution raises the
not-found error exactly when the file resolved against the root directory
does not exist, and — when it exists — raises the unknown-type error exactly
when the extension is not in the fixed MIME table.  Neither failure is a
silent pass-through: in each case the result is the distinguished error, not
an `.ok`. -/
theorem local_resolution_errors (cfg : EmbedCfg) (fs : Fs) (src : List Char)
    (h : urlScheme src = []) :
    (to_data_src cfg fs src
        = .error (.notFound (pathJoin cfg.root_path src))
      ↔ fsGet fs (pathJoin cfg.root_path src) = none) ∧
    (∀ content, fsGet fs (pathJoin cfg.root_path src) = some content →
      (to_data_src cfg fs src = .error (.unknownMime src)
        ↔ mimeType src = none)) := by
  have hcond : ¬(urlScheme src ≠ []) := by simp [h]
  constructor
  · unfold to_data_src
    rw [if_neg hcond]
    cases hf : fsGet fs (pathJoin cfg.root_path src) with
    | none => simp
    | some content =>
      cases hm : mimeType src with
      | none => simp
      | some mt =>
        simp only []
        split
        · simp
        · simp
  · intro content hf
    unfold to_data_src
    rw [if_neg hcond, hf]
    cases hm : mimeType src with
    | none => simp [hm]
    | some mt =>
      simp only [hm]
      split
      · simp
      · simp

/-- Witness for `local_resolution_errors`: a missing file and a present file
with an unknown extension. -/
theorem local_resolution_errors_witness :
    (to_data_src ⟨"lab".toList, true, fun b => (b, 0, 0)⟩ ⟨[]⟩ ("img.png".toList)
        = .error (.notFound (pathJoin "lab".toList "img.png".toList))
      ↔ fsGet ⟨[]⟩ (pathJoin "lab".toList "img.png".toList) = none) ∧
    (to_data_src ⟨"lab".toList, true, fun b => (b, 0, 0)⟩
        ⟨[("lab/img.xyz".toList, [1, 2])]⟩ ("img.xyz".toList)
        = .error (.unknownMime ("img.xyz".toList))
      ↔ mimeType ("img.xyz".toList) = none) :=
  ⟨(local_resolution_errors ⟨"lab".toList, true, fun b => (b, 0, 0)⟩ ⟨[]⟩
      ("img.png".toList) (by decide)).1,
   (local_resolution_errors ⟨"lab".toList, true, fun b => (b, 0, 0)⟩
      ⟨[("lab/img.xyz".toList, [1, 2])]⟩ ("img.xyz".toList) (by decide)).2
     [1, 2] (by decide)⟩

/-- Claim C1: local PNG embedding.  For every local file (empty scheme)
that exists under the configured root and has the `png` media type, the
rendered image output contains the substring
`data:image/png;base64,<base64 of the file's raw bytes>` — that substring is
exactly `dataUri "image/png" content`, whose tail is `b64encode content`,
the standard base64 of the bytes read from the file. -/
theorem local_png_embedding (cfg : EmbedCfg) (fs : Fs)
    (src title text : List Char) (content : List Nat)
    (hsch : urlScheme src = [])
    (hfs : fsGet fs (pathJoin cfg.root_path src) = some content)
    (hmt : mimeType src = some ("image/png".toList)) :
    ∃ out, embedImage cfg fs src title text = .ok (some out) ∧
      ∃ pre post, out = pre ++ dataUri ("image/png".toList) content ++ post := by
  have hcond : ¬(urlScheme src ≠ []) := by simp [hsch]
  have hpngsvg : ¬(cfg.convert_svgs
      ∧ ("image/png".toList : List Char) = "image/svg+xml".toList) := by
    intro hcon
    exact absurd hcon.2 (by decide)
  have hto : to_data_src cfg fs src
      = .ok (some (dataUri ("image/png".toList) content, none, none)) := by
    unfold to_data_src
    rw [if_neg hcond, hfs]
    simp only [hmt]
    rw [if_neg hpngsvg]
  refine ⟨html_image (dataUri ("image/png".toList) content) title text none none,
    ?_, ?_⟩
  · unfold embedImage
    rw [hto]
  · refine ⟨"<img src=\"".toList,
      "\"".toList ++ htmlImageAttrs title text none none, ?_⟩
    unfold html_image
    rw [escape_link_id _ (dataUri_png_safe content)]
    simp [List.append_assoc]

/-- Witness for `local_png_embedding` at a concrete filesystem holding a
two-byte `img.png`. -/
theorem local_png_embedding_witness :
    ∃ out, embedImage ⟨"lab".toList, true, fun b => (b, 0, 0)⟩
        ⟨[("lab/img.png".toList, [137, 80])]⟩ ("img.png".toList) [] ("alt".toList)
        = .ok (some out) ∧
      ∃ pre post, out = pre ++ dataUri ("image/png".toList) [137, 80] ++ post :=
  local_png_embedding ⟨"lab".toList, true, fun b => (b, 0, 0)⟩
    ⟨[("lab/img.png".toList, [137, 80])]⟩ ("img.png".toList) [] ("alt".toList)
    [137, 80] (by decide) (by decide) (by decide)

end EmbedClaims
